import Mathlib

/-!
Verification of the esync library: a counting semaphore (src/semaphore.rs)
and a bounded-concurrency parallel map built on it (src/worker_threads.rs).

The embedding is sequential and explicit about blocking and panics:

- The semaphore counter is a Rust u32; we model it as an `Int` so that the
  non-negativity invariant is a theorem rather than a typing artifact.
  Addition wraps modulo 2^32, matching u32 arithmetic.
- `Semaphore.wait` returns `Option Semaphore`: `none` means the call blocks
  forever (the count is zero and, in the run being modelled, no concurrent
  release will arrive).
- Interleavings of wait and release are modelled as traces of events
  (`SemOp`) executed by `exec`; a wait event in a trace is a wait call that
  completed (the code only decrements under the `count > 0` test inside the
  critical section).
- The transform passed to `process` may panic; a panicking transform is
  modelled as returning `none`. A task that panics skips its
  `sem.release()` call, exactly as Rust unwinding skips it in the closure
  `|| { let r = predicate(s); sem.release(); r }`.
-/

namespace Esync

/-- The modulus of Rust u32 arithmetic, 2^32. -/
def U32MOD : Int := 4294967296

/-- Embeds `pub struct Semaphore`: the u32 guarded by the mutex.
The condition variable has no sequential content beyond the blocking
behaviour, which `wait` makes explicit. -/
structure Semaphore where
  count : Int
deriving DecidableEq

/-- Embeds `Semaphore::new`: stores the initial u32 value. The argument is
reduced modulo 2^32 to reflect its u32 type. -/
def Semaphore.new (initial_value : Nat) : Semaphore :=
  ⟨((initial_value % 4294967296 : Nat) : Int)⟩

/-- Embeds `Semaphore::wait`: if the count is positive it is decremented
and the call returns; otherwise the caller sleeps on the condition
variable, which in a run with no further releases means it blocks forever
(`none`). -/
def Semaphore.wait (s : Semaphore) : Option Semaphore :=
  if 0 < s.count then some ⟨s.count - 1⟩ else none

/-- Embeds `Semaphore::release`: `*guard += 1` on a u32, so the increment
wraps modulo 2^32. -/
def Semaphore.release (s : Semaphore) : Semaphore :=
  ⟨(s.count + 1) % U32MOD⟩

/-- Embeds `Semaphore::get_current_value`: reads the count under the lock. -/
def Semaphore.get_current_value (s : Semaphore) : Int :=
  s.count

/-- One completed semaphore operation, as an event of an interleaved run.
All wait and release bodies run under the one mutex, so a concurrent
history of a semaphore is a sequence of these events. -/
inductive SemOp
  | wait
  | release
deriving DecidableEq

/-- Number of wait events in a trace. -/
def waits : List SemOp → Nat
  | [] => 0
  | SemOp.wait :: ops => waits ops + 1
  | SemOp.release :: ops => waits ops

/-- Number of release events in a trace. -/
def releases : List SemOp → Nat
  | [] => 0
  | SemOp.wait :: ops => releases ops
  | SemOp.release :: ops => releases ops + 1

/-- Executes a trace of completed semaphore operations. A wait event can
only complete from a state with positive count (the code decrements only
under the `count > 0` test); a trace that schedules a wait at count zero
does not correspond to a real history, and execution is undefined. -/
def exec (s : Semaphore) : List SemOp → Option Semaphore
  | [] => some s
  | SemOp.wait :: ops =>
    match s.wait with
    | none => none
    | some s1 => exec s1 ops
  | SemOp.release :: ops => exec s.release ops

/-- Outcome of a `process` call in the sequentialized embedding:
it returns its result vector, or a panic propagates out of it
(`t.join().unwrap()` on a panicked task), or it blocks forever
(`sem.wait()` in the dispatch loop with no release ever coming). -/
inductive ProcResult (R : Type u)
  | ok (results : List R)
  | panicked
  | blocked
deriving DecidableEq

/-- Embeds the dispatch loop of `process`:
`for s in it { sem.wait(); threads.push(sc.spawn(|| { let r = predicate(s); sem.release(); r })) }`,
sequentialized so that each spawned task runs to completion before the next
iteration. The transform may panic (`predicate s = none`); a panicking task
unwinds before reaching `sem.release()`, so the permit is not returned.
Returns the outcomes of the spawned tasks in spawn order together with the
final semaphore, or `none` when the dispatching thread blocks forever in
`sem.wait()`. -/
def dispatchLoop (predicate : T → Option R) : Semaphore → List T → Option (List (Option R) × Semaphore)
  | sem, [] => some ([], sem)
  | sem, s :: rest =>
    match sem.wait with
    | none => none
    | some sem1 =>
      match predicate s with
      | some r =>
        match dispatchLoop predicate sem1.release rest with
        | none => none
        | some (threads, semEnd) => some (some r :: threads, semEnd)
      | none =>
        match dispatchLoop predicate sem1 rest with
        | none => none
        | some (threads, semEnd) => some (none :: threads, semEnd)

/-- Embeds the collection loop of `process`:
`while let Some(t) = threads.pop() { retval.push(t.join().unwrap()); }`.
`Vec::pop` removes from the end of the vector, so the loop consumes the
handles in reverse spawn order; this function walks that reversed sequence.
Joining a panicked task gives `Err`, and `.unwrap()` propagates the panic. -/
def joinPops : List (Option R) → List R → ProcResult R
  | [], retval => ProcResult.ok retval
  | none :: _, _ => ProcResult.panicked
  | some r :: rest, retval => joinPops rest (retval ++ [r])

/-- The collection loop applied to the handles in spawn order: popping a
vector yields its reverse. -/
def joinLoop (threads : List (Option R)) (retval : List R) : ProcResult R :=
  joinPops threads.reverse retval

/-- Embeds `pub fn process<IT, P, R>(it, predicate, workers) -> Vec<R>`,
sequentialized. The iterator is a list, `workers` is a u32, and the
transform may panic (`none`). -/
def process (it : List T) (predicate : T → Option R) (workers : Nat) : ProcResult R :=
  let sem := Semaphore.new workers
  match dispatchLoop predicate sem it with
  | none => ProcResult.blocked
  | some (threads, _) => joinLoop threads []

/-- State of one `process` call for the concurrency-bound analysis:
the items not yet dispatched, the number of tasks currently executing the
transform, and the semaphore count. Task results are irrelevant to the
bound and are not tracked. -/
structure ProcState (T : Type u) where
  pending : List T
  running : Nat
  sem : Int

/-- Interleaved small-step semantics of a `process` call.
`dispatch` is the dispatching thread completing `sem.wait()` (only enabled
when the count is positive) and spawning the task, which is then running.
`finish` is a running task completing the transform and executing
`sem.release()` (u32 increment, wrapping modulo 2^32). -/
inductive ProcStep : ProcState T → ProcState T → Prop
  | dispatch (x : T) (rest : List T) (running : Nat) (sem : Int) :
      0 < sem →
      ProcStep ⟨x :: rest, running, sem⟩ ⟨rest, running + 1, sem - 1⟩
  | finish (pending : List T) (running : Nat) (sem : Int) :
      ProcStep ⟨pending, running + 1, sem⟩ ⟨pending, running, (sem + 1) % U32MOD⟩

/-- Initial state of `process it predicate workers`: nothing dispatched,
semaphore freshly constructed with `Semaphore::new(workers)`. -/
def procInit (it : List T) (workers : Nat) : ProcState T :=
  ⟨it, 0, (Semaphore.new workers).count⟩

/-! ## General lemmas about the semaphore trace semantics -/

/-- A completed wait requires a positive count and decrements it by one. -/
theorem wait_spec {s t : Semaphore} (h : s.wait = some t) :
    0 < s.count ∧ t.count = s.count - 1 := by
  by_cases hc : 0 < s.count
  · simp only [Semaphore.wait, if_pos hc, Option.some.injEq] at h
    exact ⟨hc, by rw [← h]⟩
  · simp only [Semaphore.wait, if_neg hc] at h
    exact absurd h (by simp)

/-- Executing any trace of completed operations preserves non-negativity of
the count. -/
theorem exec_nonneg (ops : List SemOp) :
    ∀ s t : Semaphore, 0 ≤ s.count → exec s ops = some t → 0 ≤ t.count := by
  induction ops with
  | nil =>
    intro s t hs h
    simp only [exec, Option.some.injEq] at h
    rw [← h]; exact hs
  | cons op rest ih =>
    intro s t hs h
    cases op with
    | wait =>
      by_cases hc : 0 < s.count
      · simp only [exec, Semaphore.wait, if_pos hc] at h
        exact ih ⟨s.count - 1⟩ t (show (0:Int) ≤ s.count - 1 by omega) h
      · simp only [exec, Semaphore.wait, if_neg hc] at h
        exact absurd h (by simp)
    | release =>
      simp only [exec] at h
      refine ih s.release t ?_ h
      exact Int.emod_nonneg _ (by norm_num [U32MOD])

/-- Exact accounting for traces whose running count never exceeds a bound
below 2^32: the final count is the initial one plus completed releases
minus completed waits. The bound rules out u32 wrap-around in release. -/
theorem exec_balance (ops : List SemOp) :
    ∀ (s t : Semaphore) (B : Int), 0 ≤ s.count → B < U32MOD →
      (∀ p q, ops = p ++ q → s.count + (releases p : Int) - (waits p : Int) ≤ B) →
      exec s ops = some t →
      t.count = s.count + (releases ops : Int) - (waits ops : Int) := by
  induction ops with
  | nil =>
    intro s t B h0 hB hpre h
    simp only [exec, Option.some.injEq] at h
    simp [releases, waits, ← h]
  | cons op rest ih =>
    intro s t B h0 hB hpre h
    cases op with
    | wait =>
      by_cases hc : 0 < s.count
      · simp only [exec, Semaphore.wait, if_pos hc] at h
        have hpre' : ∀ p q, rest = p ++ q →
            (⟨s.count - 1⟩ : Semaphore).count + (releases p : Int) - (waits p : Int) ≤ B := by
          intro p q hpq
          have hh := hpre (SemOp.wait :: p) q (by simp [hpq])
          simp only [releases, waits] at hh
          push_cast at hh ⊢
          linarith
        have hrec := ih ⟨s.count - 1⟩ t B (show (0:Int) ≤ s.count - 1 by omega) hB hpre' h
        simp only [releases, waits] at hrec ⊢
        push_cast at hrec ⊢
        linarith
      · simp only [exec, Semaphore.wait, if_neg hc] at h
        exact absurd h (by simp)
    | release =>
      simp only [exec] at h
      have h1 : s.count + 1 ≤ B := by
        have hh := hpre [SemOp.release] rest rfl
        simp only [releases, waits] at hh
        push_cast at hh
        linarith
      have hrel : s.release = ⟨s.count + 1⟩ := by
        simp only [Semaphore.release]
        rw [Int.emod_eq_of_lt (by omega) (by omega)]
      rw [hrel] at h
      have hpre' : ∀ p q, rest = p ++ q →
          (⟨s.count + 1⟩ : Semaphore).count + (releases p : Int) - (waits p : Int) ≤ B := by
        intro p q hpq
        have hh := hpre (SemOp.release :: p) q (by simp [hpq])
        simp only [releases, waits] at hh
        push_cast at hh ⊢
        linarith
      have hrec := ih ⟨s.count + 1⟩ t B (show (0:Int) ≤ s.count + 1 by omega) hB hpre' h
      simp only [releases, waits] at hrec ⊢
      push_cast at hrec ⊢
      linarith

/-! ## General lemmas about the process embedding -/

/-- With a never-panicking transform and a positive count below 2^32, the
dispatch loop never blocks: every task waits, runs, and releases, returning
the semaphore to its starting count each iteration. -/
theorem dispatchLoop_total (f : T → R) (it : List T) :
    ∀ c : Int, 0 < c → c < U32MOD →
      dispatchLoop (fun x => some (f x)) ⟨c⟩ it =
        some (it.map (fun x => some (f x)), ⟨c⟩) := by
  induction it with
  | nil => intro c h0 hc; rfl
  | cons x rest ih =>
    intro c h0 hc
    have hw : (⟨c⟩ : Semaphore).wait = some ⟨c - 1⟩ := by
      simp [Semaphore.wait, if_pos h0]
    have hr : (⟨c - 1⟩ : Semaphore).release = ⟨c⟩ := by
      simp only [Semaphore.release]
      norm_num
      rw [Int.emod_eq_of_lt (by omega) (by omega)]
    simp only [dispatchLoop, hw, hr, ih c h0 hc, List.map]

/-- Popping a vector of successfully joined handles appends their results
in reverse vector order. -/
theorem joinPops_map_some (l acc : List R) :
    joinPops (l.map some) acc = ProcResult.ok (acc ++ l) := by
  induction l generalizing acc with
  | nil => simp [joinPops]
  | cons r rest ih => simp [joinPops, ih]

/-- `process` with a never-panicking transform and a u32 worker count of at
least one returns exactly the mapped results, in reverse input order. -/
theorem process_total (it : List T) (f : T → R) (k : Nat)
    (h1 : 1 ≤ k) (h2 : k < 4294967296) :
    process it (fun x => some (f x)) k = ProcResult.ok ((it.map f).reverse) := by
  have hnew : Semaphore.new k = ⟨(k : Int)⟩ := by
    simp [Semaphore.new, Nat.mod_eq_of_lt h2]
  have hd := dispatchLoop_total f it (k : Int)
    (by exact_mod_cast h1) (by simp only [U32MOD]; exact_mod_cast h2)
  simp only [process, hnew, hd, joinLoop]
  rw [show it.map (fun x => some (f x)) = (it.map f).map some by simp [List.map_map, Function.comp]]
  rw [← List.map_reverse, joinPops_map_some]
  simp

/-- Whatever the semaphore does, the dispatch loop records exactly the
transform outcome of each input, in input order. -/
theorem dispatchLoop_threads (f : T → Option R) (it : List T) :
    ∀ (s s1 : Semaphore) (ts : List (Option R)),
      dispatchLoop f s it = some (ts, s1) → ts = it.map f := by
  induction it with
  | nil =>
    intro s s1 ts h
    simp only [dispatchLoop, Option.some.injEq, Prod.mk.injEq] at h
    simp [← h.1]
  | cons x rest ih =>
    intro s s1 ts h
    simp only [dispatchLoop] at h
    split at h
    · exact absurd h (by simp)
    · rename_i sem1 hw
      split at h
      · rename_i r hp
        split at h
        · exact absurd h (by simp)
        · rename_i pr ts0 se hd
          simp only [Option.some.injEq, Prod.mk.injEq] at h
          rw [← h.1, List.map_cons, hp, ih _ _ _ hd]
      · rename_i hp
        split at h
        · exact absurd h (by simp)
        · rename_i pr ts0 se hd
          simp only [Option.some.injEq, Prod.mk.injEq] at h
          rw [← h.1, List.map_cons, hp, ih _ _ _ hd]

/-- A panicked handle somewhere in the vector makes the join loop propagate
the panic: it can never produce a success result. -/
theorem joinPops_of_mem_none (ts : List (Option R)) :
    ∀ acc : List R, none ∈ ts → joinPops ts acc = ProcResult.panicked := by
  induction ts with
  | nil => intro acc h; exact absurd h (by simp)
  | cons t rest ih =>
    intro acc h
    cases t with
    | none => rfl
    | some r =>
      have : none ∈ rest := by
        rcases List.mem_cons.mp h with h1 | h1
        · exact absurd h1 (by simp)
        · exact h1
      simp only [joinPops]
      exact ih _ this

/-! ## General lemmas about the process step semantics -/

/-- One step of a `process` run preserves the semaphore accounting
invariant: the count is non-negative and count plus running tasks equals
the worker capacity. -/
theorem procStep_inv {k : Nat} (hk : (k : Int) < U32MOD) {s s1 : ProcState T}
    (hstep : ProcStep s s1)
    (hs : 0 ≤ s.sem ∧ s.sem + (s.running : Int) = (k : Int)) :
    0 ≤ s1.sem ∧ s1.sem + (s1.running : Int) = (k : Int) := by
  rcases hs with ⟨hs0, hs1⟩
  cases hstep with
  | dispatch x rest running sem hpos =>
    simp only at hs0 hs1 ⊢
    constructor
    · omega
    · push_cast at hs1 ⊢
      linarith
  | finish pending running sem =>
    simp only at hs0 hs1 ⊢
    have hlt : sem + 1 ≤ (k : Int) := by
      push_cast at hs1
      omega
    rw [Int.emod_eq_of_lt (by omega) (by omega)]
    constructor
    · omega
    · push_cast at hs1 ⊢
      linarith

/-- The accounting invariant holds in every state reachable during a
`process` run. -/
theorem procReach_inv {k : Nat} (hk : (k : Int) < U32MOD) {s s1 : ProcState T}
    (h : Relation.ReflTransGen ProcStep s s1)
    (hs : 0 ≤ s.sem ∧ s.sem + (s.running : Int) = (k : Int)) :
    0 ≤ s1.sem ∧ s1.sem + (s1.running : Int) = (k : Int) := by
  induction h with
  | refl => exact hs
  | tail _ hstep ih => exact procStep_inv hk hstep ih

/-! ## Claims about the semaphore -/

/-- C2 (counterexample): at `v = 0` the claimed sequence does not complete:
the lone `wait()` blocks forever (the count is zero and the only release
comes after the wait in program order), so `get_current_value()` never
returns `0`. -/
theorem wait_release_at_zero_blocks :
    ¬ ((((Semaphore.new 0).wait).map Semaphore.release).map
        Semaphore.get_current_value = some 0) := by
  decide

/-- C2 (amended): for every u32 value `v >= 1`, `Semaphore::new(v)` followed
by one completed `wait()` and one `release()` leaves
`get_current_value() == v`. -/
theorem wait_release_restores_value (v : Nat) (h1 : 1 ≤ v) (h2 : v < 4294967296) :
    (((Semaphore.new v).wait).map Semaphore.release).map
      Semaphore.get_current_value = some ((v : Nat) : Int) := by
  have hnew : Semaphore.new v = ⟨(v : Int)⟩ := by
    simp [Semaphore.new, Nat.mod_eq_of_lt h2]
  have hv : (0 : Int) < (v : Int) := by exact_mod_cast h1
  have hw : (⟨(v : Int)⟩ : Semaphore).wait = some ⟨(v : Int) - 1⟩ := by
    simp only [Semaphore.wait]
    exact if_pos hv
  have hr : (⟨(v : Int) - 1⟩ : Semaphore).release = ⟨(v : Int)⟩ := by
    simp only [Semaphore.release]
    norm_num
    rw [Int.emod_eq_of_lt (by omega) (by simp only [U32MOD]; exact_mod_cast h2)]
  rw [hnew, hw]
  simp [hr, Semaphore.get_current_value]

/-- C2 (witness): the amended claim at `v = 7`. -/
theorem wait_release_restores_value_witness :
    (((Semaphore.new 7).wait).map Semaphore.release).map
      Semaphore.get_current_value = some ((7 : Nat) : Int) :=
  wait_release_restores_value 7 (by norm_num) (by norm_num)

/-- C3 (counterexample): at the maximum u32 count, `release()` does not
increment the count by one: the u32 addition wraps and the count becomes 0. -/
theorem release_wraps_at_u32_max :
    (Semaphore.release ⟨4294967295⟩).get_current_value = 0 ∧
      (Semaphore.release ⟨4294967295⟩).get_current_value ≠
        Semaphore.get_current_value ⟨4294967295⟩ + 1 := by
  constructor
  · simp only [Semaphore.release, Semaphore.get_current_value, U32MOD]
    decide
  · simp only [Semaphore.release, Semaphore.get_current_value, U32MOD]
    decide

/-- C3 (amended): `release()` is total (the model has no failure mode) and
increments the count by exactly one whenever the count is below the
maximum u32 value 4294967295; at that maximum the addition wraps to 0. -/
theorem release_increments_below_max (s : Semaphore) (h1 : 0 ≤ s.count)
    (h2 : s.count < 4294967295) :
    s.release.get_current_value = s.get_current_value + 1 := by
  simp only [Semaphore.release, Semaphore.get_current_value]
  rw [Int.emod_eq_of_lt (by omega) (by simp only [U32MOD]; omega)]

/-- C3 (witness): the amended claim at count 5. -/
theorem release_increments_below_max_witness :
    (Semaphore.release ⟨5⟩).get_current_value =
      Semaphore.get_current_value ⟨5⟩ + 1 :=
  release_increments_below_max ⟨5⟩ (by norm_num) (by norm_num)

/-- C4: under every trace of completed wait and release operations starting
from any `Semaphore::new` state, the observed count is never negative; and
a wait call completes only from a positive count, which it decrements by
one (it never observes or leaves a negative count). -/
theorem sem_count_nonneg :
    (∀ (v : Nat) (ops : List SemOp) (s : Semaphore),
        exec (Semaphore.new v) ops = some s → 0 ≤ s.get_current_value) ∧
      (∀ s t : Semaphore, s.wait = some t →
        0 < s.get_current_value ∧
          t.get_current_value = s.get_current_value - 1) := by
  constructor
  · intro v ops s h
    exact exec_nonneg ops (Semaphore.new v) s
      (by simp only [Semaphore.new]; positivity) h
  · intro s t h
    exact wait_spec h

/-- C4 (witness): both parts at concrete inputs: the trace wait-release on
a semaphore of value 1, and a wait from count 1. -/
theorem sem_count_nonneg_witness :
    (0 ≤ Semaphore.get_current_value (Semaphore.new 1) ∧
        0 < Semaphore.get_current_value ⟨1⟩) := by
  constructor
  · exact sem_count_nonneg.1 1 [SemOp.wait, SemOp.release] (Semaphore.new 1)
      (by decide)
  · exact (sem_count_nonneg.2 ⟨1⟩ ⟨0⟩ (by decide)).1

/-- C5: conservation. Starting from a u32 initial value `C`, any completed
trace in which releases never outnumber waits in any prefix (every release
is paired with an earlier wait) and whose total wait and release counts are
equal leaves `get_current_value()` equal to `C`. -/
theorem sem_conservation (v : Nat) (ops : List SemOp) (s : Semaphore)
    (hv : v < 4294967296)
    (hpair : ∀ p q, ops = p ++ q → releases p ≤ waits p)
    (hbal : waits ops = releases ops)
    (hexec : exec (Semaphore.new v) ops = some s) :
    s.get_current_value = ((v : Nat) : Int) := by
  have hnew : Semaphore.new v = ⟨(v : Int)⟩ := by
    simp [Semaphore.new, Nat.mod_eq_of_lt hv]
  rw [hnew] at hexec
  have hbound : ∀ p q, ops = p ++ q →
      (⟨(v : Int)⟩ : Semaphore).count + (releases p : Int) - (waits p : Int) ≤ (v : Int) := by
    intro p q hpq
    have h0 := hpair p q hpq
    have h1 : (releases p : Int) ≤ (waits p : Int) := by exact_mod_cast h0
    show (v : Int) + (releases p : Int) - (waits p : Int) ≤ (v : Int)
    linarith
  have hB : ((v : Nat) : Int) < U32MOD := by
    simp only [U32MOD]; exact_mod_cast hv
  have := exec_balance ops ⟨(v : Int)⟩ s (v : Int)
    (by positivity) hB hbound hexec
  simp only [Semaphore.get_current_value] at this ⊢
  rw [this]
  have hb : (waits ops : Int) = (releases ops : Int) := by exact_mod_cast hbal
  show (v : Int) + (releases ops : Int) - (waits ops : Int) = (v : Int)
  linarith

/-- C5 (witness): the conservation law for the trace wait-release starting
from initial value 2. -/
theorem sem_conservation_witness :
    Semaphore.get_current_value (Semaphore.new 2) = ((2 : Nat) : Int) := by
  refine sem_conservation 2 [SemOp.wait, SemOp.release] (Semaphore.new 2)
    (by norm_num) ?_ (by decide) (by decide)
  intro p q h
  rcases p with _ | ⟨a, p⟩
  · decide
  · injection h with h1 h2
    subst h1
    rcases p with _ | ⟨b, p⟩
    · decide
    · injection h2 with h3 h4
      subst h3
      have hp : p = [] := by
        cases p with
        | nil => rfl
        | cons c p => simp at h4
      subst hp
      decide

/-! ## Claims about process -/

/-- C1: for every input list, every transform, and every u32 worker count
of at least one, `process` returns a collection with exactly as many
elements as the input, whose multiset equals the multiset of the
transform applied elementwise. -/
theorem process_length_multiset (it : List T) (f : T → R) (k : Nat)
    (h1 : 1 ≤ k) (h2 : k < 4294967296) :
    ∃ l : List R, process it (fun x => some (f x)) k = ProcResult.ok l ∧
      l.length = it.length ∧ (l : Multiset R) = ((it.map f : List R) : Multiset R) := by
  refine ⟨(it.map f).reverse, process_total it f k h1 h2, by simp, ?_⟩
  exact Multiset.coe_eq_coe.mpr (List.reverse_perm (it.map f))

/-- C1 (witness): squaring `[1, 2, 3]` with two workers yields three
results forming the multiset of `[1, 4, 9]`. -/
theorem process_length_multiset_witness :
    ∃ l : List Nat, process [1, 2, 3] (fun x => some (x * x)) 2 = ProcResult.ok l ∧
      l.length = [1, 2, 3].length ∧
        (l : Multiset Nat) = (([1, 2, 3].map fun x => x * x : List Nat) : Multiset Nat) :=
  process_length_multiset [1, 2, 3] (fun x => x * x) 2 (by norm_num) (by norm_num)

/-- C6: on the empty input, `process` returns the empty collection at once,
for every transform (panicking or not) and every worker count, including
zero. -/
theorem process_empty_ok (f : T → Option R) (k : Nat) :
    process ([] : List T) f k = ProcResult.ok [] :=
  rfl

/-- C7: in every state reachable in the interleaved small-step semantics of
a `process` call with u32 worker capacity `k`, at most `k` tasks are
concurrently executing the transform: each task's permit is taken by the
dispatching thread strictly before the task starts running. -/
theorem running_le_workers (k : Nat) (it : List T) (s : ProcState T)
    (hk : k < 4294967296)
    (hreach : Relation.ReflTransGen ProcStep (procInit it k) s) :
    s.running ≤ k := by
  have hkI : (k : Int) < U32MOD := by
    simp only [U32MOD]; exact_mod_cast hk
  have hinit : 0 ≤ (procInit it k).sem ∧
      (procInit it k).sem + ((procInit it k).running : Int) = (k : Int) := by
    simp only [procInit, Semaphore.new, Nat.mod_eq_of_lt hk]
    constructor
    · positivity
    · simp
  have hinv := procReach_inv hkI hreach hinit
  omega

/-- C7 (witness): after dispatching the only item of a one-item input with
capacity 2 (one wait completed, one task spawned and running), at most two
tasks run. -/
theorem running_le_workers_witness :
    ProcState.running (⟨[], 1, 1⟩ : ProcState Unit) ≤ 2 := by
  refine running_le_workers 2 [()] ⟨[], 1, 1⟩ (by norm_num) ?_
  have h0 : procInit [()] 2 = (⟨[()], 0, 2⟩ : ProcState Unit) := by
    simp [procInit, Semaphore.new]
  rw [h0]
  have hstep := ProcStep.dispatch () ([] : List Unit) 0 (2 : Int) (by norm_num)
  have h1 : ((2 : Int) - 1) = 1 := by norm_num
  rw [h1] at hstep
  exact Relation.ReflTransGen.single hstep

/-- C8: with `workers == 0`, `process` on any non-empty input blocks
forever in the first `sem.wait()` (no task ever runs, so no release ever
comes) and never returns; the configuration is not otherwise rejected, as
the empty input still returns normally. -/
theorem process_zero_workers_blocks (x : T) (rest : List T) (f : T → Option R) :
    process (x :: rest) f 0 = ProcResult.blocked ∧
      process ([] : List T) f 0 = ProcResult.ok [] := by
  constructor
  · simp only [process, dispatchLoop, Semaphore.new, Semaphore.wait]
    norm_num
  · rfl

/-- C9 (counterexample): a panicking transform does not always propagate
out of `process` as a failure of the call: with two items and one worker,
the first task panics without releasing its permit, the dispatching thread
then blocks forever in `sem.wait()` for the second item, and the call
never returns at all (it neither returns a result nor propagates the
panic). -/
theorem panic_starves_semaphore :
    process [0, 1] (fun _ => (none : Option Nat)) 1 = ProcResult.blocked ∧
      process [0, 1] (fun _ => (none : Option Nat)) 1 ≠ ProcResult.panicked := by
  decide

/-- C9 (amended): a transform panic is never silently swallowed: if any
input item's transform panics, `process` never returns a success result
(which would be missing that item's output); the call either blocks
forever (the lost permit starves the semaphore before dispatch finishes)
or propagates the panic from `t.join().unwrap()`. -/
theorem panic_never_ok (it : List T) (f : T → Option R) (k : Nat) (x : T)
    (hx : x ∈ it) (hfx : f x = none) :
    process it f k = ProcResult.blocked ∨
      process it f k = ProcResult.panicked := by
  cases hd : dispatchLoop f (Semaphore.new k) it with
  | none =>
    left
    simp [process, hd]
  | some pr =>
    rcases pr with ⟨ts, se⟩
    right
    have hts : ts = it.map f := dispatchLoop_threads f it _ _ _ hd
    have hmem : none ∈ ts := by
      rw [hts, ← hfx]
      exact List.mem_map_of_mem f hx
    simp only [process, hd, joinLoop]
    exact joinPops_of_mem_none ts.reverse [] (by simpa using hmem)

/-- C9 (witness): the amended claim at a one-item input, where the panic
does propagate. -/
theorem panic_never_ok_witness :
    process [0] (fun _ => (none : Option Nat)) 1 = ProcResult.blocked ∨
      process [0] (fun _ => (none : Option Nat)) 1 = ProcResult.panicked :=
  panic_never_ok [0] (fun _ => none) 1 0 (by simp) rfl

/-- C10: in the sequentialized embedding, `process` with at least one
worker returns exactly the reverse of the elementwise image of the input:
tasks are pushed in dispatch order and results are collected by popping
the vector of handles. -/
theorem process_reverse_order (it : List T) (f : T → R) (k : Nat)
    (h1 : 1 ≤ k) (h2 : k < 4294967296) :
    process it (fun x => some (f x)) k = ProcResult.ok ((it.map f).reverse) :=
  process_total it f k h1 h2

/-- C10 (witness): squaring `[1, 2, 3]` with one worker yields `[9, 4, 1]`. -/
theorem process_reverse_order_witness :
    process [1, 2, 3] (fun x => some (x * x)) 1 =
      ProcResult.ok (([1, 2, 3].map fun x => x * x).reverse) :=
  process_reverse_order [1, 2, 3] (fun x => x * x) 1 (by norm_num) (by norm_num)

end Esync
